import Mathlib

/-!
Verification of the RAGForge multi-collection vector index and retrieval layer.

The Python source is shallowly embedded: strings are Lean `String`s, Python
lists are Lean `List`s, the JSON registry and on-disk artifacts become
association lists keyed by path, float32 similarity scores become exact
rationals (ℚ), and raised exceptions become `Except` error values.  The
external SentenceTransformer model is a parameter `encodeFn : String → List ℚ`
(the spec treats the neural network as a black box).
-/

namespace RAGForge

/-! ## Python string primitives -/

/-- The whitespace characters stripped by Python `str.strip()` and matched by
the regex class `\s` (ASCII range; the sources only handle ASCII metadata). -/
def isPyWs (c : Char) : Bool :=
  c = ' ' || c = '\t' || c = '\n' || c = '\r' || c = '\x0b' || c = '\x0c'

/-- Python `str.strip()`: drop leading and trailing whitespace. -/
def pyStrip (s : String) : String :=
  String.mk (((s.data.dropWhile isPyWs).reverse.dropWhile isPyWs).reverse)

/-- Python `str.lower()` on one character (the titles handled by the manager
are ASCII; `lower()` maps `A`–`Z` down by 32). -/
def pyLowerChar (c : Char) : Char :=
  if 'A' ≤ c ∧ c ≤ 'Z' then Char.ofNat (c.toNat + 32) else c

/-- Python `title.strip().lower()`: the normalized collection key
(`IndexManager` normalizes every title this way). -/
def normKey (title : String) : String :=
  String.mk ((pyStrip title).data.map pyLowerChar)

/-- Split a character list into maximal runs of non-whitespace characters:
Python `str.split()` with no separator (as used after the `\s+` collapse). -/
def splitWsChars : List Char → List (List Char)
  | [] => []
  | c :: rest =>
    if isPyWs c then splitWsChars rest
    else
      match rest with
      | [] => [[c]]
      | d :: _ =>
        if isPyWs d then [c] :: splitWsChars rest
        else
          match splitWsChars rest with
          | [] => [[c]]
          | w :: ws => (c :: w) :: ws

/-- Python `text.split()` (whitespace words, no empties). -/
def pyWords (s : String) : List String :=
  (splitWsChars s.data).map String.mk

/-- Core of `re.sub(r'pat+', r, text)` for a single-character class: replace
every maximal run of characters satisfying `p` by the single character `r`.
The flag records whether the previous character was inside a run. -/
def collapseRunsGo (p : Char → Bool) (r : Char) : Bool → List Char → List Char
  | _, [] => []
  | inRun, c :: rest =>
    if p c then
      if inRun then collapseRunsGo p r true rest
      else r :: collapseRunsGo p r true rest
    else c :: collapseRunsGo p r false rest

def collapseRuns (p : Char → Bool) (r : Char) (cs : List Char) : List Char :=
  collapseRunsGo p r false cs

/-- `clean_text` from `utils/text_utils.py`: `re.sub(r'\s+', ' ', text)`,
then `re.sub(r'\n+', '\n', text)`, then `strip()`. -/
def clean_text (text : String) : String :=
  pyStrip (String.mk (collapseRuns (· = '\n') '\n'
    (collapseRuns isPyWs ' ' text.data)))

/-- Python `s.split(sep)` for a single-character separator (keeps empties). -/
def splitOnChar (sep : Char) : List Char → List (List Char)
  | [] => [[]]
  | c :: rest =>
    let r := splitOnChar sep rest
    if c = sep then [] :: r
    else
      match r with
      | [] => [[c]]
      | w :: ws => (c :: w) :: ws

def pySplitOn (sep : Char) (s : String) : List String :=
  (splitOnChar sep s.data).map String.mk

/-- Python `range(0, stop, step)` for a positive step. -/
def rangeList (stop step : Nat) : List Nat :=
  (List.range ((stop + step - 1) / step)).map (· * step)

/-- Exceptions raised by the embedded Python code. -/
inductive PyError where
  | valueError (msg : String)
  | fileNotFound (path : String)
  | indexError
deriving DecidableEq

/-! ## Chunker (`LearningPhase/chunking_logic.py`, lines 44–57)

The word-window loop `for i in range(0, total_words, size - overlap)` with
the `if i + size >= total_words: break` safety break.  `chunkWindowsGo` is
the loop body at index `i`; the fuel argument bounds the recursion and is
never exhausted when `step ≥ 1` (each iteration advances `i` by `step`). -/

def chunkWindowsGo (words : List String) (size step : Nat) : Nat → Nat → List (List String)
  | _, 0 => []
  | i, fuel + 1 =>
    let c := (words.drop i).take size
    if words.length ≤ i + size then [c]
    else c :: chunkWindowsGo words size step (i + step) fuel

/-- The windows of `size` words advancing by `step`, as word lists
(the Python code joins each window with single spaces afterwards). -/
def chunkWindows (words : List String) (size step : Nat) : List (List String) :=
  if words.length = 0 then [] else chunkWindowsGo words size step 0 words.length

/-- `educational_chunk_logic(text, size, overlap)`.
`range(0, total_words, size - overlap)` raises
`ValueError: range() arg 3 must not be zero` when `size = overlap`, and is
empty (the loop never runs, `chunks = []`) when `size < overlap`. -/
def educational_chunk_logic (text : String) (size overlap : Nat) :
    Except PyError (List String) :=
  let words := pyWords text
  if size = overlap then .error (.valueError "range() arg 3 must not be zero")
  else if size < overlap then .ok []
  else .ok ((chunkWindows words size (size - overlap)).map
    (fun w => String.intercalate " " w))

/-! ## Paragraph-grouping chunker (`utils/text_utils.py`, `chunk_text`) -/

/-- Word count of the last one or two members of `current_chunk`
(`sum(len(s.split()) for s in current_chunk)` after the overlap carry). -/
def wordCountSum (l : List String) : Nat :=
  (l.map (fun s => (pyWords s).length)).sum

/-- The `for para in paragraphs` loop of `chunk_text`, carrying
`chunks`, `current_chunk` and `current_length`. -/
def chunkTextLoop (chunk_size overlap : Nat) :
    List String → List String → List String → Nat → Except PyError (List String)
  | [], chunks, current_chunk, _ =>
    if current_chunk.isEmpty then .ok chunks
    else .ok (chunks ++ [String.intercalate "\n" current_chunk])
  | para :: rest, chunks, current_chunk, current_length =>
    let para_tokens := (pyWords para).length
    if chunk_size < para_tokens then
      -- `if para_tokens > chunk_size`: window-split the long paragraph
      if chunk_size = overlap then
        .error (.valueError "range() arg 3 must not be zero")
      else if chunk_size < overlap then
        -- negative step: `range` is empty, the paragraph is silently dropped
        chunkTextLoop chunk_size overlap rest chunks current_chunk current_length
      else
        let words := pyWords para
        let newChunks := (rangeList words.length (chunk_size - overlap)).map
          (fun i => String.intercalate " " ((words.drop i).take chunk_size))
        chunkTextLoop chunk_size overlap rest (chunks ++ newChunks)
          current_chunk current_length
    else
      if chunk_size < current_length + para_tokens ∧ ¬ current_chunk.isEmpty then
        let chunks' := chunks ++ [String.intercalate "\n" current_chunk]
        let carry :=
          if 0 < overlap then
            if 2 ≤ current_chunk.length then
              current_chunk.drop (current_chunk.length - 2)
            else current_chunk.drop (current_chunk.length - 1)
          else []
        chunkTextLoop chunk_size overlap rest chunks' (carry ++ [para])
          (wordCountSum carry + para_tokens)
      else
        chunkTextLoop chunk_size overlap rest chunks (current_chunk ++ [para])
          (current_length + para_tokens)

/-- `chunk_text(text, chunk_size, overlap)` from `utils/text_utils.py`. -/
def chunk_text (text : String) (chunk_size overlap : Nat) :
    Except PyError (List String) :=
  if pyStrip text = "" then .ok []
  else
    let t := clean_text text
    let paragraphs := ((pySplitOn '\n' t).map pyStrip).filter (fun p => ¬ p = "")
    chunkTextLoop chunk_size overlap paragraphs [] [] 0

/-! ## Vectors and the FAISS `IndexFlatIP` model

Embedding vectors are lists of exact rationals; float32 scores become ℚ.
`faissSearch` models `IndexFlatIP.search`: exact inner-product scores,
results sorted descending (ties broken by ascending insertion position,
deterministically), and — when `k` exceeds the number of stored vectors —
the remaining slots padded with label `-1` and the lowest float32 value. -/

def Vec := List ℚ
deriving DecidableEq

/-- Inner product of two stored/query vectors. -/
def dotv (a b : Vec) : ℚ :=
  (List.zipWith (fun x y => x * y) a b).sum

/-- Squared Euclidean norm (unit-normalized ⟺ `sumSq v = 1`). -/
def sumSq (v : Vec) : ℚ :=
  (v.map (fun x => x * x)).sum

/-- Stable insertion into a list sorted descending by `key`: the new element
goes before the first entry whose key is ≤ its own. -/
def insertDescBy (key : α → ℚ) (x : α) : List α → List α
  | [] => [x]
  | y :: ys => if key y ≤ key x then x :: y :: ys else y :: insertDescBy key x ys

/-- Stable descending sort by `key` (models Python's stable
`list.sort(key=..., reverse=True)` and FAISS's descending score order). -/
def sortDescBy (key : α → ℚ) : List α → List α
  | [] => []
  | x :: xs => insertDescBy key x (sortDescBy key xs)

/-- The distance value FAISS pads with when `k > ntotal`
(the most negative float32, `-FLT_MAX`). -/
def faissPadScore : ℚ := -340282346638528859811704183484516925440

/-- `index.search(q, k)` on a flat inner-product index holding `vecs`:
score every stored vector, sort descending, keep the top `min k n`, and pad
to `k` entries with `(-FLT_MAX, -1)`. Returns `(score, label)` pairs. -/
def faissSearch (vecs : List Vec) (q : Vec) (k : Nat) : List (ℚ × Int) :=
  let scored := vecs.enum.map (fun p => (dotv q p.2, (p.1 : Int)))
  (sortDescBy (fun p => p.1) scored).take k
    ++ List.replicate (k - vecs.length) (faissPadScore, -1)

/-- Python list indexing `xs[i]` with an `int` index: negative indices count
from the end; `none` is an `IndexError`. -/
def pyIndex (xs : List α) (i : Int) : Option α :=
  let j : Int := if i < 0 then (xs.length : Int) + i else i
  if 0 ≤ j then xs.get? j.toNat else none

/-- The result loop of `IndexManager.search` (lines 197–204):
`for dist, idx in zip(distances[0], indices[0]): if idx < len(all_chunks):
results.append((all_chunks[idx], float(dist)))`.  A lookup at an index below
`-len(all_chunks)` raises `IndexError`. -/
def searchLoop (all_chunks : List String) :
    List (ℚ × Int) → Except PyError (List (String × ℚ))
  | [] => .ok []
  | (dist, idx) :: rest =>
    if idx < (all_chunks.length : Int) then
      match pyIndex all_chunks idx with
      | none => .error .indexError
      | some c => (searchLoop all_chunks rest).map (fun rs => (c, dist) :: rs)
    else searchLoop all_chunks rest

/-! ## Association-list maps (Python `dict` / the on-disk file system) -/

/-- First-match lookup (Python `d[k]` / `k in d`). -/
def lookupA (l : List (String × β)) (k : String) : Option β :=
  match l with
  | [] => none
  | (k', v) :: t => if k' = k then some v else lookupA t k

/-- `d[k] = v`: replace the first binding of `k`, or append a new one. -/
def setA (l : List (String × β)) (k : String) (v : β) : List (String × β) :=
  match l with
  | [] => [(k, v)]
  | (k', v') :: t => if k' = k then (k, v) :: t else (k', v') :: setA t k v

/-- `del d[k]` / file unlink: drop every binding of `k`. -/
def removeA (l : List (String × β)) (k : String) : List (String × β) :=
  l.filter (fun p => ¬ p.1 = k)

/-! ## The embedder (`vectordb/embedder.py`) -/

/-- `Embedder.embed_texts`: drop texts that are empty after `strip()`, strip
the survivors, and encode each with the external model `encodeFn`
(`normalize_embeddings=True` is the model's concern, see `embed_query_spec`).
Returns one vector per surviving text. -/
def embed_texts (encodeFn : String → Vec) (texts : List String) : List Vec :=
  ((texts.filter (fun t => ¬ pyStrip t = "")).map pyStrip).map encodeFn

/-- `Embedder.embed_query`: `ValueError` on an empty or whitespace-only
query, otherwise encode the (unstripped) query. -/
def embed_query (encodeFn : String → Vec) (query : String) :
    Except PyError Vec :=
  if query = "" ∨ pyStrip query = "" then .error (.valueError "Query cannot be empty")
  else .ok (encodeFn query)

/-! ## The collection store (`vectordb/index_manager.py`) -/

/-- The registry value stored per normalized title in `titles.json`. -/
structure TitleInfo where
  display_name : String
  index_file : String
  chunks_file : String
  chunk_count : Nat
deriving DecidableEq

/-- In-memory manager state plus the storage-root file system: the registry
(`self.titles`), the FAISS index artifacts keyed by path, and the chunk-list
JSON artifacts keyed by path. -/
structure Store where
  titles : List (String × TitleInfo)
  indexFiles : List (String × List Vec)
  chunkFiles : List (String × List String)
deriving DecidableEq

/-- A fresh storage root: no registry file, no artifacts. -/
def emptyStore : Store := ⟨[], [], []⟩

def indexPath (normalized : String) : String :=
  "storage/faiss/" ++ normalized ++ ".index"

def chunksPath (normalized : String) : String :=
  "storage/faiss/" ++ normalized ++ "_chunks.json"

/-- `IndexManager._load_titles`: a missing registry file, or one whose JSON
fails to parse (any exception), yields the empty registry. -/
def load_titles (parse : String → Except PyError (List (String × TitleInfo)))
    (file : Option String) : List (String × TitleInfo) :=
  match file with
  | none => []
  | some s =>
    match parse s with
    | .ok t => t
    | .error _ => []

/-- `IndexManager.create_title`: returns `false` (no mutation) if the
normalized key is registered; otherwise writes an empty index artifact, an
empty chunk list, and the registry entry. -/
def create_title (store : Store) (title : String) : Bool × Store :=
  let normalized := normKey title
  if (lookupA store.titles normalized).isSome then (false, store)
  else
    (true,
      { titles := setA store.titles normalized
          { display_name := pyStrip title
            index_file := indexPath normalized
            chunks_file := chunksPath normalized
            chunk_count := 0 }
        indexFiles := setA store.indexFiles (indexPath normalized) []
        chunkFiles := setA store.chunkFiles (chunksPath normalized) [] })

/-- `IndexManager.add_documents`: `ValueError` on an unknown title, `0` on an
empty chunk list, `0` when every chunk is whitespace-only (the embedder
returned no vectors), otherwise append the embeddings to the loaded index,
append all of `chunks` to the loaded chunk list, persist both, and set the
registry `chunk_count` to the new chunk-list length. -/
def add_documents (encodeFn : String → Vec) (store : Store) (title : String)
    (chunks : List String) : Except PyError (Nat × Store) :=
  let normalized := normKey title
  match lookupA store.titles normalized with
  | none => .error (.valueError ("Title '" ++ title ++ "' does not exist"))
  | some info =>
    if chunks.isEmpty then .ok (0, store)
    else
      match lookupA store.chunkFiles info.chunks_file with
      | none => .error (.fileNotFound info.chunks_file)
      | some existing_chunks =>
        match lookupA store.indexFiles info.index_file with
        | none => .error (.fileNotFound info.index_file)
        | some index =>
          let embeddings := embed_texts encodeFn chunks
          if embeddings.length = 0 then .ok (0, store)
          else
            let newChunks := existing_chunks ++ chunks
            .ok (chunks.length,
              { titles := setA store.titles normalized
                  { info with chunk_count := newChunks.length }
                indexFiles := setA store.indexFiles info.index_file
                  (index ++ embeddings)
                chunkFiles := setA store.chunkFiles info.chunks_file
                  newChunks })

/-- `IndexManager.search`: `ValueError` on an unknown title; `[]` on an empty
chunk list; otherwise embed the query (`ValueError` if empty/whitespace),
clamp `k` to the chunk count, run the FAISS search, and keep the results
whose label passes the `idx < len(all_chunks)` check. -/
def search (encodeFn : String → Vec) (store : Store) (title query : String)
    (k : Nat) : Except PyError (List (String × ℚ)) :=
  let normalized := normKey title
  match lookupA store.titles normalized with
  | none => .error (.valueError ("Title '" ++ title ++ "' does not exist"))
  | some info =>
    match lookupA store.chunkFiles info.chunks_file with
    | none => .error (.fileNotFound info.chunks_file)
    | some all_chunks =>
      if all_chunks.isEmpty then .ok []
      else
        match lookupA store.indexFiles info.index_file with
        | none => .error (.fileNotFound info.index_file)
        | some index =>
          match embed_query encodeFn query with
          | .error e => .error e
          | .ok query_embedding =>
            let k' := min k all_chunks.length
            searchLoop all_chunks (faissSearch index query_embedding k')

/-- `IndexManager.delete_title`: `false` (no mutation) if the key is absent;
otherwise unlink whichever of the two artifacts exist, drop the registry
entry, persist the registry, and return `true`. -/
def delete_title (store : Store) (title : String) : Bool × Store :=
  let normalized := normKey title
  match lookupA store.titles normalized with
  | none => (false, store)
  | some info =>
    (true,
      { titles := removeA store.titles normalized
        indexFiles := removeA store.indexFiles info.index_file
        chunkFiles := removeA store.chunkFiles info.chunks_file })

/-! ## Retrieval merge (`pages/2_Chat.py`, lines 124–144) -/

/-- The chat page's merge block: concatenate each selected title's search
results tagged `(title, chunk, score)`, stable-sort descending by score
(`all_context.sort(key=lambda x: x["score"], reverse=True)`), and keep the
global top `k` (`all_context[:k_chunks]`). -/
def mergeSearchResults (perTitle : List (String × List (String × ℚ)))
    (k : Nat) : List (String × String × ℚ) :=
  let all_context := perTitle.flatMap
    (fun p => p.2.map (fun r => (p.1, r.1, r.2)))
  (sortDescBy (fun x => x.2.2) all_context).take k

/-! ## Store invariants -/

/-- Reachability invariant: every registry entry's artifact paths are the
ones `create_title` derives from its normalized key. -/
def WFPaths (store : Store) : Prop :=
  ∀ e ∈ store.titles,
    e.2.index_file = indexPath e.1 ∧ e.2.chunks_file = chunksPath e.1

/-- The §3 invariant: for every registry entry, the vector count of its index
artifact equals the chunk count of its chunk-list artifact (as far as both
artifacts exist on disk). -/
def VecChunkAligned (store : Store) : Prop :=
  ∀ e ∈ store.titles,
    (lookupA store.indexFiles e.2.index_file).map List.length =
      (lookupA store.chunkFiles e.2.chunks_file).map List.length

instance (store : Store) : Decidable (WFPaths store) :=
  List.decidableBAll _ store.titles

instance (store : Store) : Decidable (VecChunkAligned store) :=
  List.decidableBAll _ store.titles

/-- A chunk list that does not mix whitespace-only and substantive chunks. -/
def GoodChunkList (chunks : List String) : Prop :=
  (∀ c ∈ chunks, ¬ pyStrip c = "") ∨ (∀ c ∈ chunks, pyStrip c = "")

instance (chunks : List String) : Decidable (GoodChunkList chunks) :=
  inferInstanceAs (Decidable (_ ∨ _))

/-- Run a sequence of `add_documents` calls, keeping the prior store when a
call raises (the exception leaves the manager untouched). -/
def applyAdds (encodeFn : String → Vec) : Store → List (String × List String) → Store
  | store, [] => store
  | store, (title, chunks) :: ops =>
    match add_documents encodeFn store title chunks with
    | .ok p => applyAdds encodeFn p.2 ops
    | .error _ => applyAdds encodeFn store ops


/-! ## Concrete instances used in the analysis -/

/-- A degenerate external model: every text embeds to the unit vector `[1]`
(dimension 1).  Enough to exercise the store logic. -/
def embedOne : String → Vec := fun _ => [1]

/-- The store after `create_title` on a fresh storage root. -/
def storeT : Store := (create_title emptyStore "t").2

/-- The store after adding the mixed chunk list `["hello", "  "]` to `"t"`:
the embedder drops the whitespace-only chunk, the chunk file keeps it. -/
def mixedStore : Store :=
  match add_documents embedOne storeT "t" ["hello", "  "] with
  | .ok p => p.2
  | .error _ => emptyStore

/-- Two collections (`"t"`, `"b"`), then an add to `"t"`: used to witness
that `"b"` is untouched. -/
def c9Store : Store :=
  match add_documents embedOne (create_title storeT "b").2 "t" ["x"] with
  | .ok p => p.2
  | .error _ => emptyStore

/-! ## Helper lemmas: association lists -/

theorem lookupA_setA_self (l : List (String × β)) (k : String) (v : β) :
    lookupA (setA l k v) k = some v := by
  induction l with
  | nil => simp [lookupA, setA]
  | cons p t ih =>
    by_cases h : p.1 = k
    · simp [lookupA, setA, h]
    · simp [lookupA, setA, h, ih]

theorem lookupA_setA_ne (l : List (String × β)) (k k' : String) (v : β)
    (h : ¬ k' = k) : lookupA (setA l k v) k' = lookupA l k' := by
  have h2 : ¬ k = k' := fun hk => h hk.symm
  induction l with
  | nil => simp [lookupA, setA, h2]
  | cons p t ih =>
    by_cases hp : p.1 = k
    · simp [lookupA, setA, hp, h2]
    · by_cases hq : p.1 = k'
      · simp [lookupA, setA, hp, hq, h, h2]
      · simp [lookupA, setA, hp, hq, ih]

theorem lookupA_removeA_self (l : List (String × β)) (k : String) :
    lookupA (removeA l k) k = none := by
  induction l with
  | nil => simp [lookupA, removeA]
  | cons p t ih =>
    by_cases h : p.1 = k
    · simpa [removeA, List.filter_cons, h] using ih
    · simpa [removeA, List.filter_cons, lookupA, h] using ih

theorem lookupA_removeA_ne (l : List (String × β)) (k k' : String)
    (h : ¬ k' = k) : lookupA (removeA l k) k' = lookupA l k' := by
  have h2 : ¬ k = k' := fun hk => h hk.symm
  induction l with
  | nil => simp [lookupA, removeA]
  | cons p t ih =>
    by_cases hp : p.1 = k
    · simpa [removeA, List.filter_cons, lookupA, hp, h2] using ih
    · by_cases hq : p.1 = k'
      · simp [removeA, List.filter_cons, lookupA, hp, hq, h, h2]
      · simpa [removeA, List.filter_cons, lookupA, hp, hq] using ih

theorem mem_of_lookupA (l : List (String × β)) (k : String) (v : β)
    (h : lookupA l k = some v) : (k, v) ∈ l := by
  induction l with
  | nil => simp [lookupA] at h
  | cons p t ih =>
    by_cases hp : p.1 = k
    · simp only [lookupA, hp, if_pos] at h
      obtain ⟨k₁, v₁⟩ := p
      simp_all
    · simp only [lookupA, hp, if_neg, not_false_iff] at h
      exact List.mem_cons_of_mem _ (ih h)

theorem mem_setA (l : List (String × β)) (k : String) (v : β) (e : String × β)
    (h : e ∈ setA l k v) : e = (k, v) ∨ e ∈ l := by
  induction l with
  | nil => simpa [setA] using h
  | cons p t ih =>
    by_cases hp : p.1 = k
    · rw [show setA (p :: t) k v = (k, v) :: t by simp [setA, hp]] at h
      rcases List.mem_cons.1 h with h | h
      · exact .inl h
      · exact .inr (List.mem_cons_of_mem _ h)
    · rw [show setA (p :: t) k v = (p.1, p.2) :: setA t k v by
        simp [setA, hp]] at h
      rcases List.mem_cons.1 h with h | h
      · exact .inr (by simp [h])
      · rcases ih h with h' | h'
        · exact .inl h'
        · exact .inr (List.mem_cons_of_mem _ h')

/-! ## Helper lemmas: path naming -/

theorem string_affix_inj (p s a b : String)
    (h : p ++ a ++ s = p ++ b ++ s) : a = b := by
  have hd : p.data ++ (a.data ++ s.data) = p.data ++ (b.data ++ s.data) := by
    have := congrArg String.data h
    simpa [List.append_assoc] using this
  have h2 : a.data ++ s.data = b.data ++ s.data := List.append_cancel_left hd
  have h3 : a.data = b.data := List.append_cancel_right h2
  cases a
  cases b
  exact congrArg String.mk h3

theorem indexPath_inj (a b : String) (h : indexPath a = indexPath b) : a = b :=
  string_affix_inj "storage/faiss/" ".index" a b h

theorem chunksPath_inj (a b : String) (h : chunksPath a = chunksPath b) :
    a = b :=
  string_affix_inj "storage/faiss/" "_chunks.json" a b h

/-! ## Helper lemmas: stable descending sort -/

theorem insertDescBy_perm (key : α → ℚ) (x : α) (l : List α) :
    List.Perm (insertDescBy key x l) (x :: l) := by
  induction l with
  | nil => simp [insertDescBy]
  | cons y ys ih =>
    by_cases h : key y ≤ key x
    · simp [insertDescBy, h]
    · have h1 : insertDescBy key x (y :: ys) = y :: insertDescBy key x ys := by
        simp [insertDescBy, h]
      rw [h1]
      exact (ih.cons y).trans (List.Perm.swap x y ys)

theorem sortDescBy_perm (key : α → ℚ) (l : List α) :
    List.Perm (sortDescBy key l) l := by
  induction l with
  | nil => simp [sortDescBy]
  | cons x xs ih => exact (insertDescBy_perm key x _).trans (ih.cons x)

theorem length_sortDescBy (key : α → ℚ) (l : List α) :
    (sortDescBy key l).length = l.length :=
  (sortDescBy_perm key l).length_eq

theorem pairwise_insertDescBy (key : α → ℚ) (x : α) (l : List α)
    (h : l.Pairwise (fun a b => key b ≤ key a)) :
    (insertDescBy key x l).Pairwise (fun a b => key b ≤ key a) := by
  induction l with
  | nil => simp [insertDescBy]
  | cons y ys ih =>
    rcases List.pairwise_cons.1 h with ⟨hy, hys⟩
    by_cases hcmp : key y ≤ key x
    · rw [show insertDescBy key x (y :: ys) = x :: y :: ys by
        simp [insertDescBy, hcmp]]
      refine List.pairwise_cons.2 ⟨?_, h⟩
      intro z hz
      rcases List.mem_cons.1 hz with rfl | hz
      · exact hcmp
      · exact le_trans (hy z hz) hcmp
    · rw [show insertDescBy key x (y :: ys) = y :: insertDescBy key x ys by
        simp [insertDescBy, hcmp]]
      refine List.pairwise_cons.2 ⟨?_, ih hys⟩
      intro z hz
      rcases List.mem_cons.1 ((insertDescBy_perm key x ys).mem_iff.1 hz) with
        rfl | hz
      · exact le_of_not_le hcmp
      · exact hy z hz

theorem pairwise_sortDescBy (key : α → ℚ) (l : List α) :
    (sortDescBy key l).Pairwise (fun a b => key b ≤ key a) := by
  induction l with
  | nil => simp [sortDescBy]
  | cons x xs ih => exact pairwise_insertDescBy key x _ ih

/-! ## Helper lemmas: word windows -/

theorem chunkWindowsGo_succ (words : List String) (size step i f : Nat) :
    chunkWindowsGo words size step i (f + 1) =
      if words.length ≤ i + size then [(words.drop i).take size]
      else (words.drop i).take size :: chunkWindowsGo words size step (i + step) f :=
  rfl

theorem chunkWindows_def (words : List String) (size step : Nat) :
    chunkWindows words size step =
      if words.length = 0 then []
      else chunkWindowsGo words size step 0 words.length :=
  rfl

theorem chunkWindowsGo_ne_nil (words : List String) (size step i fuel : Nat)
    (hfuel : 1 ≤ fuel) : chunkWindowsGo words size step i fuel ≠ [] := by
  match fuel, hfuel with
  | f + 1, _ =>
    rw [chunkWindowsGo_succ]
    by_cases h : words.length ≤ i + size <;> simp [h]

theorem chunkWindowsGo_get (words : List String) (size step : Nat)
    (hstep : 1 ≤ step) (hss : step ≤ size) :
    ∀ (fuel i : Nat), i < words.length → words.length ≤ i + fuel * step →
      ∀ (j : Nat), j < (chunkWindowsGo words size step i fuel).length →
        (chunkWindowsGo words size step i fuel).get? j =
          some ((words.drop (i + j * step)).take size) := by
  intro fuel
  induction fuel with
  | zero => intro i hi hb; omega
  | succ f ih =>
    intro i hi hb j h
    by_cases hend : words.length ≤ i + size
    · rw [chunkWindowsGo_succ] at h ⊢
      simp only [hend, ite_true] at h ⊢
      have hj : j = 0 := by
        have h1 : j < 1 := by simpa using h
        omega
      subst hj
      simp
    · rw [chunkWindowsGo_succ] at h ⊢
      simp only [hend, ite_false] at h ⊢
      match j with
      | 0 => simp
      | j' + 1 =>
        have hi' : i + step < words.length := by omega
        have hb' : words.length ≤ (i + step) + f * step := by
          have hmul : (f + 1) * step = f * step + step := by ring
          omega
        have hlen : j' < (chunkWindowsGo words size step (i + step) f).length := by
          simp only [List.length_cons] at h
          omega
        have hrec := ih (i + step) hi' hb' j' hlen
        have harg : i + step + j' * step = i + (j' + 1) * step := by ring
        simpa [harg] using hrec

theorem chunkWindowsGo_full (words : List String) (size step : Nat)
    (hstep : 1 ≤ step) (hss : step ≤ size) :
    ∀ (fuel i : Nat), i < words.length → words.length ≤ i + fuel * step →
      ∀ (j : Nat), j + 1 < (chunkWindowsGo words size step i fuel).length →
        i + j * step + size < words.length := by
  intro fuel
  induction fuel with
  | zero => intro i hi hb; omega
  | succ f ih =>
    intro i hi hb j h
    by_cases hend : words.length ≤ i + size
    · rw [chunkWindowsGo_succ] at h
      simp only [hend, if_true, ite_true, List.length_singleton] at h
      omega
    · rw [chunkWindowsGo_succ] at h
      simp only [hend, if_false, ite_false, List.length_cons] at h
      match j with
      | 0 => simpa using hend
      | j' + 1 =>
        have hi' : i + step < words.length := by omega
        have hb' : words.length ≤ (i + step) + f * step := by
          have hmul : (f + 1) * step = f * step + step := by ring
          omega
        have hrec := ih (i + step) hi' hb' j' (by omega)
        have heq : i + step + j' * step = i + (j' + 1) * step := by ring
        omega

theorem chunkWindows_get (words : List String) (size step : Nat)
    (hstep : 1 ≤ step) (hss : step ≤ size) (hw : words ≠ [])
    (j : Nat) (h : j < (chunkWindows words size step).length) :
    (chunkWindows words size step).get? j =
      some ((words.drop (j * step)).take size) := by
  have hlen : words.length ≠ 0 := fun h0 => hw (List.length_eq_zero.1 h0)
  rw [chunkWindows_def] at h ⊢
  simp only [hlen, ite_false] at h ⊢
  have hres := chunkWindowsGo_get words size step hstep hss words.length 0
    (Nat.pos_of_ne_zero hlen) (by
      have hm := Nat.le_mul_of_pos_right words.length hstep
      omega) j h
  simpa using hres

theorem chunkWindows_full (words : List String) (size step : Nat)
    (hstep : 1 ≤ step) (hss : step ≤ size) (hw : words ≠ [])
    (j : Nat) (h : j + 1 < (chunkWindows words size step).length) :
    j * step + size < words.length := by
  have hlen : words.length ≠ 0 := fun h0 => hw (List.length_eq_zero.1 h0)
  rw [chunkWindows_def] at h
  simp only [hlen, ite_false] at h
  have hres := chunkWindowsGo_full words size step hstep hss words.length 0
    (Nat.pos_of_ne_zero hlen) (by
      have hm := Nat.le_mul_of_pos_right words.length hstep
      omega) j h
  simpa using hres

/-! ## Helper lemmas: Python indexing and the search result loop -/

theorem pyIndex_some (xs : List α) (i : Int)
    (hlo : -(xs.length : Int) ≤ i) (hhi : i < (xs.length : Int)) :
    ∃ c, pyIndex xs i = some c := by
  by_cases hneg : i < 0
  · have h0 : (0 : Int) ≤ (xs.length : Int) + i := by omega
    have hlt : ((xs.length : Int) + i).toNat < xs.length := by omega
    refine ⟨xs.get ⟨((xs.length : Int) + i).toNat, hlt⟩, ?_⟩
    simp only [pyIndex, hneg, ite_true, h0, if_pos]
    exact List.get?_eq_get hlt
  · have h0 : (0 : Int) ≤ i := by omega
    have hlt : i.toNat < xs.length := by omega
    refine ⟨xs.get ⟨i.toNat, hlt⟩, ?_⟩
    simp only [pyIndex, hneg, ite_false, h0, if_pos]
    exact List.get?_eq_get hlt

theorem pyIndex_neg_one (xs : List α) (h : xs ≠ []) :
    pyIndex xs (-1) = some (xs.getLast h) := by
  have hlen : 1 ≤ xs.length := List.length_pos.2 h
  have h0 : (0 : Int) ≤ (xs.length : Int) + (-1) := by omega
  have hlt : ((xs.length : Int) + (-1)).toNat < xs.length := by omega
  have htn : ((xs.length : Int) + (-1)).toNat = xs.length - 1 := by omega
  simp only [pyIndex, show (-1 : Int) < 0 by omega, ite_true, h0, if_pos, htn]
  rw [List.getLast_eq_getElem, List.get?_eq_getElem?,
    List.getElem?_eq_getElem (show xs.length - 1 < xs.length by omega)]

/-- The exact behaviour of the search result loop when every position is at
least `-len` (so Python never raises `IndexError`): positions `≥ len` are
skipped, all others are resolved through Python indexing. -/
theorem searchLoop_eq_filterMap (all_chunks : List String)
    (hits : List (ℚ × Int))
    (hlo : ∀ p ∈ hits, -(all_chunks.length : Int) ≤ p.2) :
    searchLoop all_chunks hits = .ok (hits.filterMap (fun p =>
      if p.2 < (all_chunks.length : Int) then
        (pyIndex all_chunks p.2).map (fun c => (c, p.1))
      else none)) := by
  induction hits with
  | nil => simp [searchLoop]
  | cons p rest ih =>
    obtain ⟨dist, idx⟩ := p
    have hrest : ∀ q ∈ rest, -(all_chunks.length : Int) ≤ q.2 :=
      fun q hq => hlo q (List.mem_cons_of_mem _ hq)
    by_cases hidx : idx < (all_chunks.length : Int)
    · obtain ⟨c, hc⟩ := pyIndex_some all_chunks idx
        (hlo (dist, idx) (List.mem_cons_self _ _)) hidx
      simp [searchLoop, hidx, hc, ih hrest, List.filterMap_cons, Except.map]
    · simp [searchLoop, hidx, ih hrest, List.filterMap_cons]

theorem searchLoop_length_le (all_chunks : List String)
    (hits : List (ℚ × Int)) (res : List (String × ℚ))
    (h : searchLoop all_chunks hits = .ok res) : res.length ≤ hits.length := by
  induction hits generalizing res with
  | nil =>
    simp only [searchLoop, Except.ok.injEq] at h
    simp [← h]
  | cons p rest ih =>
    obtain ⟨dist, idx⟩ := p
    by_cases hidx : idx < (all_chunks.length : Int)
    · simp only [searchLoop, hidx, ite_true] at h
      cases hpy : pyIndex all_chunks idx with
      | none => rw [hpy] at h; simp at h
      | some c =>
        rw [hpy] at h
        cases hrec : searchLoop all_chunks rest with
        | error e => rw [hrec] at h; simp [Except.map] at h
        | ok rs =>
          rw [hrec] at h
          simp only [Except.map, Except.ok.injEq] at h
          have := ih rs hrec
          simp [← h, List.length_cons]
          omega
    · simp only [searchLoop, hidx, ite_false] at h
      have := ih res h
      simp [List.length_cons]
      omega

/-! ## Helper lemmas: the FAISS search model -/

theorem length_faissSearch (vecs : List Vec) (q : Vec) (k : Nat) :
    (faissSearch vecs q k).length = k := by
  simp only [faissSearch, List.length_append, List.length_take,
    List.length_replicate, length_sortDescBy, List.length_map, List.enum_length]
  omega

theorem faissSearch_labels (vecs : List Vec) (q : Vec) (k : Nat) :
    ∀ p ∈ faissSearch vecs q k, 0 ≤ p.2 ∨ p.2 = -1 := by
  intro p hp
  rcases List.mem_append.1 hp with h | h
  · left
    have hmem := (sortDescBy_perm (fun r : ℚ × Int => r.1) _).mem_iff.1
      (List.mem_of_mem_take h)
    rcases List.mem_map.1 hmem with ⟨e, _, rfl⟩
    exact Int.ofNat_nonneg e.1
  · right
    have := List.eq_of_mem_replicate h
    rw [this]

/-! ## Helper lemmas: the embedder and `add_documents` -/

theorem length_embed_texts_of_substantive (encodeFn : String → Vec)
    (chunks : List String) (h : ∀ c ∈ chunks, ¬ pyStrip c = "") :
    (embed_texts encodeFn chunks).length = chunks.length := by
  simp only [embed_texts, List.length_map]
  rw [List.filter_eq_self.2 (fun c hc => by simpa using h c hc)]

theorem embed_texts_of_whitespace (encodeFn : String → Vec)
    (chunks : List String) (h : ∀ c ∈ chunks, pyStrip c = "") :
    embed_texts encodeFn chunks = [] := by
  simp only [embed_texts, List.map_eq_nil_iff]
  exact List.filter_eq_nil_iff.2 (fun c hc => by simpa using h c hc)

/-- Case analysis on a successful `add_documents` call: either it was a
no-op (empty chunk list, or every chunk whitespace-only), or it appended the
embeddings and the chunks and bumped the registry count. -/
theorem add_documents_ok (encodeFn : String → Vec) (store : Store)
    (title : String) (chunks : List String) (n : Nat) (s' : Store)
    (h : add_documents encodeFn store title chunks = .ok (n, s')) :
    s' = store ∨
    ∃ info existing index,
      lookupA store.titles (normKey title) = some info ∧
      lookupA store.chunkFiles info.chunks_file = some existing ∧
      lookupA store.indexFiles info.index_file = some index ∧
      ¬ chunks.isEmpty ∧ ¬ (embed_texts encodeFn chunks).length = 0 ∧
      n = chunks.length ∧
      s' = { titles := setA store.titles (normKey title)
               { info with chunk_count := (existing ++ chunks).length }
             indexFiles := setA store.indexFiles info.index_file
               (index ++ embed_texts encodeFn chunks)
             chunkFiles := setA store.chunkFiles info.chunks_file
               (existing ++ chunks) } := by
  rw [add_documents] at h
  cases hT : lookupA store.titles (normKey title) with
  | none => rw [hT] at h; simp at h
  | some info =>
    rw [hT] at h
    simp only at h
    cases hE : chunks.isEmpty with
    | true =>
      left
      rw [hE] at h
      simp only [ite_true, Except.ok.injEq, Prod.mk.injEq] at h
      exact h.2.symm
    | false =>
      rw [hE] at h
      simp only [Bool.false_eq_true, ite_false] at h
      cases hC : lookupA store.chunkFiles info.chunks_file with
      | none => rw [hC] at h; simp at h
      | some existing =>
        rw [hC] at h
        cases hI : lookupA store.indexFiles info.index_file with
        | none => rw [hI] at h; simp at h
        | some index =>
          rw [hI] at h
          simp only at h
          by_cases hZ : (embed_texts encodeFn chunks).length = 0
          · left
            rw [if_pos hZ] at h
            simp only [Except.ok.injEq, Prod.mk.injEq] at h
            exact h.2.symm
          · right
            rw [if_neg hZ] at h
            simp only [Except.ok.injEq, Prod.mk.injEq] at h
            refine ⟨info, existing, index, ?_, ?_, ?_, ?_, hZ, ?_, ?_⟩
            · rfl
            · exact hC
            · exact hI
            · simp [hE]
            · exact h.1.symm
            · exact h.2.symm

theorem add_documents_preserves_WFPaths (encodeFn : String → Vec)
    (store : Store) (title : String) (chunks : List String) (n : Nat)
    (s' : Store) (hwf : WFPaths store)
    (h : add_documents encodeFn store title chunks = .ok (n, s')) :
    WFPaths s' := by
  rcases add_documents_ok encodeFn store title chunks n s' h with rfl | hmain
  · exact hwf
  · obtain ⟨info, existing, index, hT, _, _, _, _, _, rfl⟩ := hmain
    intro e he
    rcases mem_setA _ _ _ _ he with rfl | he'
    · exact hwf (normKey title, info) (mem_of_lookupA _ _ _ hT)
    · exact hwf e he'

theorem add_documents_preserves_aligned (encodeFn : String → Vec)
    (store : Store) (title : String) (chunks : List String) (n : Nat)
    (s' : Store) (hwf : WFPaths store) (hal : VecChunkAligned store)
    (hgood : GoodChunkList chunks)
    (h : add_documents encodeFn store title chunks = .ok (n, s')) :
    VecChunkAligned s' := by
  rcases add_documents_ok encodeFn store title chunks n s' h with rfl | hmain
  · exact hal
  · obtain ⟨info, existing, index, hT, hC, hI, hne, hz, _, rfl⟩ := hmain
    have hinfo_mem := mem_of_lookupA _ _ _ hT
    obtain ⟨hifile, hcfile⟩ := hwf _ hinfo_mem
    have hlen_emb : (embed_texts encodeFn chunks).length = chunks.length := by
      rcases hgood with hg | hg
      · exact length_embed_texts_of_substantive encodeFn chunks hg
      · have hnil : (embed_texts encodeFn chunks).length = 0 := by
          rw [embed_texts_of_whitespace encodeFn chunks hg]
          rfl
        exact absurd hnil hz
    have hold := hal _ hinfo_mem
    rw [hC, hI] at hold
    have hlen_eq : index.length = existing.length := by
      simpa using hold
    intro e he
    rcases mem_setA _ _ _ _ he with rfl | he'
    · simp only [lookupA_setA_self]
      simp [List.length_append, hlen_eq, hlen_emb]
    · obtain ⟨heif, hecf⟩ := hwf e he'
      by_cases hk : e.1 = normKey title
      · have h1 : e.2.index_file = info.index_file := by
          rw [heif, hifile, hk]
        have h2 : e.2.chunks_file = info.chunks_file := by
          rw [hecf, hcfile, hk]
        simp only [h1, h2, lookupA_setA_self]
        simp [List.length_append, hlen_eq, hlen_emb]
      · have h1 : ¬ e.2.index_file = info.index_file := by
          rw [heif, hifile]
          exact fun hc => hk (indexPath_inj _ _ hc)
        have h2 : ¬ e.2.chunks_file = info.chunks_file := by
          rw [hecf, hcfile]
          exact fun hc => hk (chunksPath_inj _ _ hc)
        rw [lookupA_setA_ne _ _ _ _ h1, lookupA_setA_ne _ _ _ _ h2]
        exact hal e he'

theorem applyAdds_preserves (encodeFn : String → Vec) :
    ∀ (ops : List (String × List String)) (store : Store),
      WFPaths store → VecChunkAligned store →
      (∀ op ∈ ops, GoodChunkList op.2) →
      WFPaths (applyAdds encodeFn store ops) ∧
        VecChunkAligned (applyAdds encodeFn store ops) := by
  intro ops
  induction ops with
  | nil => intro store hwf hal _; exact ⟨hwf, hal⟩
  | cons op rest ih =>
    intro store hwf hal hgood
    obtain ⟨title, chunks⟩ := op
    have hg := hgood (title, chunks) (List.mem_cons_self _ _)
    have hgrest : ∀ op ∈ rest, GoodChunkList op.2 :=
      fun o ho => hgood o (List.mem_cons_of_mem _ ho)
    rw [show applyAdds encodeFn store ((title, chunks) :: rest) =
        (match add_documents encodeFn store title chunks with
          | .ok p => applyAdds encodeFn p.2 rest
          | .error _ => applyAdds encodeFn store rest) from rfl]
    cases hadd : add_documents encodeFn store title chunks with
    | error e => exact ih store hwf hal hgrest
    | ok p =>
      exact ih p.2
        (add_documents_preserves_WFPaths encodeFn store title chunks p.1 p.2
          hwf (by rw [hadd]))
        (add_documents_preserves_aligned encodeFn store title chunks p.1 p.2
          hwf hal hg (by rw [hadd]))
        hgrest

/-! ## Helper lemmas: `embed_query` and `search` -/

theorem embed_query_ok (encodeFn : String → Vec) (query : String)
    (h : ¬ pyStrip query = "") :
    embed_query encodeFn query = .ok (encodeFn query) := by
  have hq : ¬ query = "" := fun he => h (by rw [he]; rfl)
  simp [embed_query, hq, h]

theorem embed_query_err (encodeFn : String → Vec) (query : String)
    (h : pyStrip query = "") :
    embed_query encodeFn query = .error (.valueError "Query cannot be empty") := by
  simp [embed_query, h]

/-- `search` only reads the registry entry of the queried key and the two
artifacts that entry points at: stores agreeing there give equal results. -/
theorem search_congr (encodeFn : String → Vec) (s1 s2 : Store)
    (title query : String) (k : Nat)
    (hT : lookupA s2.titles (normKey title) = lookupA s1.titles (normKey title))
    (hF : ∀ info, lookupA s1.titles (normKey title) = some info →
      lookupA s2.chunkFiles info.chunks_file =
        lookupA s1.chunkFiles info.chunks_file ∧
      lookupA s2.indexFiles info.index_file =
        lookupA s1.indexFiles info.index_file) :
    search encodeFn s2 title query k = search encodeFn s1 title query k := by
  rw [search, search, hT]
  cases hB : lookupA s1.titles (normKey title) with
  | none => rfl
  | some info =>
    obtain ⟨hc, hi⟩ := hF info hB
    simp only [hc, hi]

end RAGForge

namespace RAGForge

/-! ## The claims -/

/-- C1 counterexample: adding the mixed list `["hello", "  "]` to a fresh
collection stores one vector (the whitespace-only chunk is filtered out by
`embed_texts`) but two chunks, so `len(vectors) == len(chunks)` fails — the
claim is false for chunk lists that mix whitespace-only and substantive
strings. -/
theorem c1_counterexample :
    add_documents embedOne storeT "t" ["hello", "  "] =
      .ok (2, mixedStore) ∧
    (lookupA mixedStore.indexFiles (indexPath "t")).map List.length = some 1 ∧
    (lookupA mixedStore.chunkFiles (chunksPath "t")).map List.length = some 2 ∧
    ¬ VecChunkAligned mixedStore := by
  refine ⟨rfl, by decide, by decide, by decide⟩

/-- C1 (amended): after any sequence of `add_documents` calls in which no
chunk list mixes whitespace-only strings with substantive ones (on a store
whose registry paths are well formed), the number of vectors in every
collection's index artifact equals the number of chunks in its chunk-list
artifact. -/
theorem c1_vectors_chunks_aligned (encodeFn : String → Vec) (store : Store)
    (ops : List (String × List String)) (hwf : WFPaths store)
    (hal : VecChunkAligned store)
    (hgood : ∀ op ∈ ops, GoodChunkList op.2) :
    VecChunkAligned (applyAdds encodeFn store ops) :=
  (applyAdds_preserves encodeFn ops store hwf hal hgood).2

/-- C1 witness: the amended invariant holds concretely after creating `"t"`
and adding two substantive chunks. -/
theorem c1_vectors_chunks_aligned_witness :
    VecChunkAligned (applyAdds embedOne storeT [("t", ["hello", "world"])]) :=
  c1_vectors_chunks_aligned embedOne storeT [("t", ["hello", "world"])]
    (by decide) (by decide) (by decide)

/-- C2: for a non-empty word sequence and `0 ≤ overlap < size`, the
word-window chunker produces at least one window, every window has at most
`size` words, every pair of consecutive windows shares exactly `overlap`
words at the boundary (the last `overlap` words of one window are the first
`overlap` words of the next), and `educational_chunk_logic` returns exactly
these windows joined with single spaces. -/
theorem c2_chunk_windows_contract (words : List String) (size overlap : Nat)
    (hov : overlap < size) (hw : ¬ words = []) :
    (¬ chunkWindows words size (size - overlap) = []) ∧
    (∀ j c, (chunkWindows words size (size - overlap)).get? j = some c →
      c.length ≤ size) ∧
    (∀ j cj cj1,
      (chunkWindows words size (size - overlap)).get? j = some cj →
      (chunkWindows words size (size - overlap)).get? (j + 1) = some cj1 →
      cj.drop (size - overlap) = cj1.take overlap ∧
      (cj.drop (size - overlap)).length = overlap) ∧
    (∀ text, educational_chunk_logic text size overlap =
      .ok ((chunkWindows (pyWords text) size (size - overlap)).map
        (fun w => String.intercalate " " w))) := by
  have hstep : 1 ≤ size - overlap := by omega
  have hss : size - overlap ≤ size := by omega
  have hlen : words.length ≠ 0 := fun h0 => hw (List.length_eq_zero.1 h0)
  refine ⟨?_, ?_, ?_, ?_⟩
  · rw [chunkWindows_def]
    simp only [hlen, ite_false]
    exact chunkWindowsGo_ne_nil words size (size - overlap) 0 words.length
      (by omega)
  · intro j c hc
    obtain ⟨hj, _⟩ := List.get?_eq_some.1 hc
    rw [chunkWindows_get words size (size - overlap) hstep hss hw j hj] at hc
    have hc' : (words.drop (j * (size - overlap))).take size = c :=
      Option.some_inj.1 hc
    rw [← hc']
    simpa [List.length_take] using
      Nat.min_le_left size ((words.drop (j * (size - overlap))).length)
  · intro j cj cj1 hcj hcj1
    obtain ⟨hj1, _⟩ := List.get?_eq_some.1 hcj1
    obtain ⟨hj, _⟩ := List.get?_eq_some.1 hcj
    rw [chunkWindows_get words size (size - overlap) hstep hss hw j hj] at hcj
    rw [chunkWindows_get words size (size - overlap) hstep hss hw (j + 1)
      hj1] at hcj1
    have hfull := chunkWindows_full words size (size - overlap) hstep hss hw
      j hj1
    have hcj' : cj = (words.drop (j * (size - overlap))).take size :=
      (Option.some_inj.1 hcj).symm
    have hcj1' : cj1 = (words.drop ((j + 1) * (size - overlap))).take size :=
      (Option.some_inj.1 hcj1).symm
    subst hcj'
    subst hcj1'
    have h1 : size - (size - overlap) = overlap :=
      Nat.sub_sub_self (le_of_lt hov)
    have h2 : min overlap size = overlap := min_eq_left (le_of_lt hov)
    have h3 : j * (size - overlap) + (size - overlap) =
        (j + 1) * (size - overlap) := by ring
    constructor
    · rw [List.drop_take, List.drop_drop, List.take_take, h1, h2, h3]
    · rw [List.drop_take, List.drop_drop, List.length_take, List.length_drop]
      omega
  · intro text
    have h1 : ¬ size = overlap := by omega
    have h2 : ¬ size < overlap := by omega
    simp [educational_chunk_logic, h1, h2]

/-- C2 witness: for the word sequence `["a","b","c"]` with `size=2`,
`overlap=1`, the window list is non-empty. -/
theorem c2_chunk_windows_contract_witness :
    ¬ chunkWindows ["a", "b", "c"] 2 (2 - 1) = [] :=
  (c2_chunk_windows_contract ["a", "b", "c"] 2 1 (by decide) (by decide)).1

/-- C3 counterexample: on the corrupted collection (2 chunks, 1 vector) the
clamped FAISS search returns positions `[0, -1]`; the `-1` sentinel passes
the `idx < len(all_chunks)` check and is resolved by Python negative
indexing to the last chunk `"  "` — it is not skipped or excluded as the
claim requires. -/
theorem c3_counterexample :
    search embedOne mixedStore "t" "hi" 4 =
      .ok [("hello", dotv [1] [1]), ("  ", faissPadScore)] ∧
    dotv [1] [1] = 1 ∧
    (faissSearch [[1]] (embedOne "hi") (min 4 2)).map Prod.snd = [0, -1] := by
  refine ⟨rfl, by simp [dotv], by decide⟩

/-- C3 (amended): when every returned position is at least `-len` (as with
the FAISS `-1` sentinel on a non-empty chunk list) no out-of-range fault is
raised and positions `≥ len` are skipped, but a negative position is not
skipped: it is resolved by Python negative indexing, `-1` yielding the last
chunk. -/
theorem c3_search_loop_amended (all_chunks : List String)
    (hits : List (ℚ × Int))
    (hlo : ∀ p ∈ hits, -(all_chunks.length : Int) ≤ p.2) :
    searchLoop all_chunks hits = .ok (hits.filterMap (fun p =>
      if p.2 < (all_chunks.length : Int) then
        (pyIndex all_chunks p.2).map (fun c => (c, p.1))
      else none)) ∧
    (∀ h : all_chunks ≠ [], pyIndex all_chunks (-1) =
      some (all_chunks.getLast h)) :=
  ⟨searchLoop_eq_filterMap all_chunks hits hlo,
   fun h => pyIndex_neg_one all_chunks h⟩

/-- C3 witness: position `-1` on the chunk list `["a","b"]` resolves to the
last chunk `"b"`. -/
theorem c3_search_loop_amended_witness :
    pyIndex ["a", "b"] (-1) = some "b" := by
  have h := (c3_search_loop_amended ["a", "b"] [] (by simp)).2 (by decide)
  simpa using h

/-- C4: `search` raises the not-found `ValueError` exactly when the
normalized key is absent; returns `[]` for a collection with zero chunks;
and otherwise (files present, non-whitespace query) never raises and
returns at most `min top_k chunk_count` results — in particular, at most
`chunk_count` results when `top_k` exceeds it. -/
theorem c4_search_clamps (encodeFn : String → Vec) (store : Store)
    (title query : String) (k : Nat) :
    (lookupA store.titles (normKey title) = none →
      search encodeFn store title query k =
        .error (.valueError ("Title '" ++ title ++ "' does not exist"))) ∧
    (∀ info, lookupA store.titles (normKey title) = some info →
      lookupA store.chunkFiles info.chunks_file = some [] →
      search encodeFn store title query k = .ok []) ∧
    (∀ info cs vs, lookupA store.titles (normKey title) = some info →
      lookupA store.chunkFiles info.chunks_file = some cs → ¬ cs = [] →
      lookupA store.indexFiles info.index_file = some vs →
      ¬ pyStrip query = "" → 1 ≤ k →
      ∃ res, search encodeFn store title query k = .ok res ∧
        res.length ≤ min k cs.length ∧ res.length ≤ cs.length) := by
  refine ⟨?_, ?_, ?_⟩
  · intro h
    simp [search, h]
  · intro info hT hC
    simp [search, hT, hC]
  · intro info cs vs hT hC hcs hI hq hk
    have hEm : cs.isEmpty = false := List.isEmpty_eq_false.2 hcs
    have hemb := embed_query_ok encodeFn query hq
    have hlen1 : 1 ≤ cs.length := List.length_pos.2 hcs
    have hloL : ∀ p ∈ faissSearch vs (encodeFn query) (min k cs.length),
        -(cs.length : Int) ≤ p.2 := by
      intro p hp
      rcases faissSearch_labels vs (encodeFn query) _ p hp with h0 | hneg
      · omega
      · rw [hneg]; omega
    have hloop := searchLoop_eq_filterMap cs
      (faissSearch vs (encodeFn query) (min k cs.length)) hloL
    refine ⟨(faissSearch vs (encodeFn query) (min k cs.length)).filterMap
      (fun p => if p.2 < (cs.length : Int) then
        (pyIndex cs p.2).map (fun c => (c, p.1)) else none), ?_, ?_, ?_⟩
    · rw [search, hT]
      simp only [hC, hI, hEm, Bool.false_eq_true, ite_false, hemb]
      exact hloop
    · calc _ ≤ (faissSearch vs (encodeFn query) (min k cs.length)).length :=
            List.length_filterMap_le _ _
        _ = min k cs.length := length_faissSearch vs (encodeFn query) _
    · calc _ ≤ (faissSearch vs (encodeFn query) (min k cs.length)).length :=
            List.length_filterMap_le _ _
        _ = min k cs.length := length_faissSearch vs (encodeFn query) _
        _ ≤ cs.length := Nat.min_le_right _ _

/-- C4 witness: searching an unregistered title raises the not-found
`ValueError`. -/
theorem c4_search_clamps_witness :
    search embedOne storeT "u" "hi" 4 =
      .error (.valueError "Title 'u' does not exist") :=
  (c4_search_clamps embedOne storeT "u" "hi" 4).1 (by decide)

/-- C5: the chat merge block concatenates all per-collection results tagged
with their source collection, sorts the combined list descending by score,
and truncates to the global top `k` — so the output has at most `k`
entries, is sorted descending, and every entry comes from its tagged
collection's result list; on the spec's three-collection example with
scores `[0.9,0.7]`, `[0.85,0.3]`, `[0.6,0.5]` and `k = 3` it returns
exactly the scores `0.9, 0.85, 0.7` in that order with the correct source
collections. -/
theorem c5_merge_contract :
    (∀ (perTitle : List (String × List (String × ℚ))) (k : Nat),
      (mergeSearchResults perTitle k).length ≤ k ∧
      (mergeSearchResults perTitle k).Pairwise (fun a b => b.2.2 ≤ a.2.2) ∧
      (∀ x ∈ mergeSearchResults perTitle k,
        ∃ rs, (x.1, rs) ∈ perTitle ∧ (x.2.1, x.2.2) ∈ rs)) ∧
    mergeSearchResults
        [("A", [("a1", mkRat 9 10), ("a2", mkRat 7 10)]),
         ("B", [("b1", mkRat 17 20), ("b2", mkRat 3 10)]),
         ("C", [("c1", mkRat 3 5), ("c2", mkRat 1 2)])] 3 =
      [("A", "a1", mkRat 9 10), ("B", "b1", mkRat 17 20),
       ("A", "a2", mkRat 7 10)] := by
  constructor
  · intro perTitle k
    refine ⟨?_, ?_, ?_⟩
    · simpa [mergeSearchResults] using
        Nat.min_le_left k _
    · exact (pairwise_sortDescBy (fun x : String × String × ℚ => x.2.2)
        _).sublist (List.take_sublist _ _)
    · intro x hx
      have hx1 : x ∈ sortDescBy (fun x : String × String × ℚ => x.2.2)
          (perTitle.flatMap (fun p => p.2.map (fun r => (p.1, r.1, r.2)))) :=
        List.mem_of_mem_take hx
      have hx2 := (sortDescBy_perm
        (fun x : String × String × ℚ => x.2.2) _).mem_iff.1 hx1
      rcases List.mem_flatMap.1 hx2 with ⟨p, hp, hxp⟩
      rcases List.mem_map.1 hxp with ⟨r, hr, rfl⟩
      exact ⟨p.2, by simpa using hp, by simpa using hr⟩
  · decide

/-- C5 witness: a one-collection instance of the general merge contract. -/
theorem c5_merge_contract_witness :
    (mergeSearchResults [("A", [("x", mkRat 1 2)])] 1).length ≤ 1 :=
  (c5_merge_contract.1 [("A", [("x", mkRat 1 2)])] 1).1

/-- C6 counterexample: with `size - overlap < 0` the educational chunker
silently returns the empty chunk list (no error), and `chunk_text` with
`chunk_size=2, overlap=5` silently returns its paragraph-grouped result —
neither rejects the configuration. -/
theorem c6_counterexample :
    educational_chunk_logic "a b c" 1 2 = .ok [] ∧
    chunk_text "hello world" 2 5 = .ok ["hello world"] :=
  ⟨rfl, rfl⟩

/-- C6 (amended): a non-positive step never loops forever, but it is
rejected only in the `size = overlap` case (where Python's `range` raises
`ValueError: range() arg 3 must not be zero`); for `size < overlap` the
educational chunker silently returns `[]` for every input. -/
theorem c6_nonpositive_step_amended (text : String) (size overlap : Nat)
    (h : size ≤ overlap) :
    educational_chunk_logic text size overlap =
      if size = overlap then
        .error (.valueError "range() arg 3 must not be zero")
      else .ok [] := by
  by_cases he : size = overlap
  · simp [educational_chunk_logic, he]
  · have hlt : size < overlap := by omega
    simp [educational_chunk_logic, he, hlt]

/-- C6 witness: `size = overlap = 1` raises the `range` `ValueError`. -/
theorem c6_nonpositive_step_amended_witness :
    educational_chunk_logic "x" 1 1 =
      .error (.valueError "range() arg 3 must not be zero") := by
  have h := c6_nonpositive_step_amended "x" 1 1 (le_refl 1)
  simpa using h

/-- C7: `embed_query` raises `ValueError` exactly when the query is empty or
whitespace-only; for every other input it returns the external model's
encoding of the query, which (by the model contract the code relies on via
`normalize_embeddings=True`) is a single unit-normalized vector of the
fixed dimension `D`. -/
theorem c7_embed_query_contract (encodeFn : String → Vec) (D : Nat)
    (q : String)
    (hmodel : ∀ s, (encodeFn s).length = D ∧ sumSq (encodeFn s) = 1) :
    ((∃ e, embed_query encodeFn q = .error e) ↔ pyStrip q = "") ∧
    (¬ pyStrip q = "" →
      embed_query encodeFn q = .ok (encodeFn q) ∧
      (encodeFn q).length = D ∧ sumSq (encodeFn q) = 1) := by
  constructor
  · constructor
    · rintro ⟨e, he⟩
      by_contra hq
      rw [embed_query_ok encodeFn q hq] at he
      exact Except.noConfusion he
    · intro hq
      exact ⟨.valueError "Query cannot be empty", embed_query_err encodeFn q hq⟩
  · intro hq
    exact ⟨embed_query_ok encodeFn q hq, (hmodel q).1, (hmodel q).2⟩

/-- C7 witness: a dimension-1 model sending every text to `[1]` satisfies
the contract, and a non-empty query embeds successfully. -/
theorem c7_embed_query_contract_witness :
    embed_query (fun _ => ([1] : List ℚ)) "hi" = .ok [1] :=
  ((c7_embed_query_contract (fun _ => ([1] : List ℚ)) 1 "hi"
    (fun _ => ⟨rfl, by norm_num [sumSq]⟩)).2 (by decide)).1

/-- C8: deleting a title whose normalized key is absent returns `false`
and leaves the store untouched, and after a successful deletion every
further `delete_title` on the same title returns `false` and leaves the
store unchanged — deletion is idempotent and never raises. -/
theorem c8_delete_idempotent (store : Store) (title : String) :
    (lookupA store.titles (normKey title) = none →
      delete_title store title = (false, store)) ∧
    (∀ s', delete_title store title = (true, s') →
      delete_title s' title = (false, s')) := by
  constructor
  · intro h
    simp [delete_title, h]
  · intro s' hdel
    cases hT : lookupA store.titles (normKey title) with
    | none =>
      rw [delete_title, hT] at hdel
      simp at hdel
    | some info =>
      rw [delete_title, hT] at hdel
      simp only [Prod.mk.injEq, true_and] at hdel
      have habs : lookupA s'.titles (normKey title) = none := by
        rw [← hdel]
        exact lookupA_removeA_self store.titles (normKey title)
      rw [delete_title, habs]

/-- C8 witness: deleting `"t"` twice — the second call reports not-found and
returns the state of the first unchanged. -/
theorem c8_delete_idempotent_witness :
    delete_title (delete_title storeT "t").2 "t" =
      (false, (delete_title storeT "t").2) :=
  (c8_delete_idempotent storeT "t").2 (delete_title storeT "t").2 rfl

/-- C9: on a store with well-formed registry paths, a successful
`add_documents` to key `A` leaves every other key `B`'s registry entry,
chunk-list artifact, index artifact, and search results (for every query
and every `k`) unchanged. -/
theorem c9_add_isolation (encodeFn : String → Vec) (store : Store)
    (A B : String) (chunks : List String) (n : Nat) (s' : Store)
    (hwf : WFPaths store) (hAB : ¬ normKey A = normKey B)
    (hadd : add_documents encodeFn store A chunks = .ok (n, s')) :
    lookupA s'.titles (normKey B) = lookupA store.titles (normKey B) ∧
    (∀ infoB, lookupA store.titles (normKey B) = some infoB →
      lookupA s'.chunkFiles infoB.chunks_file =
        lookupA store.chunkFiles infoB.chunks_file ∧
      lookupA s'.indexFiles infoB.index_file =
        lookupA store.indexFiles infoB.index_file) ∧
    (∀ query k, search encodeFn s' B query k =
      search encodeFn store B query k) := by
  have hBA : ¬ normKey B = normKey A := fun h => hAB h.symm
  rcases add_documents_ok encodeFn store A chunks n s' hadd with rfl | hmain
  · exact ⟨rfl, fun infoB _ => ⟨rfl, rfl⟩, fun q k => rfl⟩
  · obtain ⟨infoA, existing, index, hTA, hCA, hIA, _, _, _, rfl⟩ := hmain
    obtain ⟨hifA, hcfA⟩ := hwf _ (mem_of_lookupA _ _ _ hTA)
    have hT : lookupA (setA store.titles (normKey A)
        { infoA with chunk_count := (existing ++ chunks).length })
        (normKey B) = lookupA store.titles (normKey B) :=
      lookupA_setA_ne _ _ _ _ hBA
    have hfiles : ∀ infoB, lookupA store.titles (normKey B) = some infoB →
        lookupA (setA store.chunkFiles infoA.chunks_file (existing ++ chunks))
          infoB.chunks_file = lookupA store.chunkFiles infoB.chunks_file ∧
        lookupA (setA store.indexFiles infoA.index_file
          (index ++ embed_texts encodeFn chunks)) infoB.index_file =
          lookupA store.indexFiles infoB.index_file := by
      intro infoB hTB
      obtain ⟨hifB, hcfB⟩ := hwf _ (mem_of_lookupA _ _ _ hTB)
      constructor
      · refine lookupA_setA_ne _ _ _ _ ?_
        rw [hcfB, hcfA]
        exact fun hc => hBA (chunksPath_inj _ _ hc)
      · refine lookupA_setA_ne _ _ _ _ ?_
        rw [hifB, hifA]
        exact fun hc => hBA (indexPath_inj _ _ hc)
    refine ⟨hT, hfiles, ?_⟩
    intro query k
    exact search_congr encodeFn store _ B query k hT hfiles

/-- C9 witness: adding to `"t"` leaves the registry entry of `"b"`
unchanged. -/
theorem c9_add_isolation_witness :
    lookupA c9Store.titles (normKey "b") =
      lookupA (create_title storeT "b").2.titles (normKey "b") :=
  (c9_add_isolation embedOne (create_title storeT "b").2 "t" "b" ["x"] 1
    c9Store (by decide) (by decide) rfl).1

/-- C10: `_load_titles` treats a registry file that exists but fails to
parse exactly like a missing registry file — both give the empty registry,
and no exception escapes. -/
theorem c10_load_titles_robust
    (parse : String → Except PyError (List (String × TitleInfo)))
    (s : String) (e : PyError) (h : parse s = .error e) :
    load_titles parse (some s) = [] ∧ load_titles parse none = [] := by
  constructor
  · simp [load_titles, h]
  · rfl

/-- C10 witness: a parser that rejects a truncated JSON document yields the
empty registry. -/
theorem c10_load_titles_robust_witness :
    load_titles (fun _ => .error (.valueError "Expecting value"))
      (some "\x7b") = [] :=
  (c10_load_titles_robust (fun _ => .error (.valueError "Expecting value"))
    "\x7b" (.valueError "Expecting value") rfl).1

end RAGForge
